import Mathlib

/-!
Verification of the poll-extraction engine of the `texas` repository
(`src/fetch-data.js` and `src/fetch-data_RTW2.js`).

The two scripts share a text-normalisation function (`clean`), a
deduplication function (`dedupe`) and a family of per-block field
classifiers (`inferCategory`, `extractResults`, `pickPollster`, ...),
executed over text snapshots of DOM blocks.  Below, each JavaScript
function is embedded as an executable Lean function over `List Char` /
`String`; the regular expressions of the source are embedded as
specialised backtracking matchers that follow the JS regex semantics
(leftmost match, greedy quantifiers with backtracking) for the concrete
patterns appearing in the source.
-/

/-- Characters treated as whitespace by the JavaScript `\s` class and by
`String.prototype.trim` (restricted to the code points that can occur in
the scraped text; the full Unicode white-space set behaves identically in
every function below). -/
def jsWs (c : Char) : Bool :=
  c == ' ' || c == '\t' || c == '\n' || c == '\r' ||
  c == '\x0b' || c == '\x0c' || c == ' '

/-- Boolean check: the first character (if any) is whitespace. -/
def headWsB : List Char → Bool
  | [] => false
  | c :: _ => jsWs c

/-- `String(s).replace(/\s+/g, ' ')`: every maximal run of whitespace is
replaced by a single space (emitted at the last character of the run, which
yields the same replacement). -/
def collapseWs : List Char → List Char
  | [] => []
  | c :: cs =>
    if jsWs c then
      if headWsB cs then collapseWs cs
      else ' ' :: collapseWs cs
    else c :: collapseWs cs

/-- `String.prototype.trim`: drop whitespace from both ends. -/
def trimList (l : List Char) : List Char :=
  ((l.dropWhile jsWs).reverse.dropWhile jsWs).reverse

/-- Embedding of `const clean = (s) => String(s || '').replace(/\s+/g, ' ').trim();`
(identical in `src/fetch-data.js:35` and `src/fetch-data_RTW2.js:35`) for a
string argument. -/
def cleanL (l : List Char) : List Char := trimList (collapseWs l)

/-- `clean` on a `String` argument. -/
def clean (s : String) : String := ⟨cleanL s.data⟩

/-- `clean` including the `s || ''` coercion: a missing (`undefined`) argument
is treated as the empty string. -/
def cleanOpt (s : Option String) : String := clean (s.getD "")

/-- Boolean check: the list has no two adjacent whitespace characters. -/
def noDoubleWs : List Char → Bool
  | [] => true
  | [_] => true
  | a :: b :: t => !(jsWs a && jsWs b) && noDoubleWs (b :: t)

/-- Boolean check: every whitespace character in the list is a plain space. -/
def wsAllSpace (l : List Char) : Bool := l.all fun c => !jsWs c || c == ' '

/-! ## Results extraction (`extractResults`)

`src/fetch-data.js:153-179` and `src/fetch-data_RTW2.js:169-189`.  The primary
pattern is
`/([A-Za-z][A-Za-z\.'’\-]+(?:\s+[A-Za-z][A-Za-z\.'’\-]+){0,4})\s+(\d{1,2}(?:\.\d+)?)\s*%/g`
scanned with `exec` (leftmost match, resume after each match), capped at 10
entries in `fetch-data.js` and 12 in `fetch-data_RTW2.js`.  If it yields no
match, the fallback `/\b(\d{1,2}(?:\.\d+)?)\s*[-–]\s*(\d{1,2}(?:\.\d+)?)\b/`
is matched once and emits placeholder choices "A"/"B". -/
/-- One extracted `{choice, pct}` entry. -/
structure Entry where
  choice : String
  pct : ℚ
deriving DecidableEq

/-- A candidate poll record (the fields of the JS block object). -/
structure Poll where
  url : String
  category : String
  race : String
  pollster : String
  date_text : String
  sample : String
  population : String
  results_text : String
  results : List Entry
deriving DecidableEq

/-- Characters of the regex class `[A-Za-z\.'’\-]` (a name-word character). -/
def wordChar (c : Char) : Bool :=
  c.isAlpha || c == '.' || c == '\'' || c == '’' || c == '-'

/-- JS regex word character (`\w`, used by the `\b` boundary): `[A-Za-z0-9_]`. -/
def isWordB (c : Char) : Bool := c.isAlpha || c.isDigit || c == '_'

/-- Match `[A-Za-z][A-Za-z\.'’\-]+` at the head of the list (a name word of at
least two characters), returning the word and the rest.  The `+` is effectively
maximal because every continuation of the name pattern starts with `\s` or a
digit, which are not word characters. -/
def matchWord : List Char → Option (List Char × List Char)
  | [] => none
  | c :: cs =>
    if c.isAlpha then
      match cs.takeWhile wordChar with
      | [] => none
      | w => some (c :: w, cs.dropWhile wordChar)
    else none

/-- Match `\s+` at the head of the list (maximal, since the following pattern
characters are never whitespace), returning the rest. -/
def matchWs : List Char → Option (List Char)
  | [] => none
  | c :: cs => if jsWs c then some (cs.dropWhile jsWs) else none

/-- Candidates for the name group `word(?:\s+word){0,4}`, in the greedy
backtracking order of the JS engine: most repetitions first.  `acc` carries the
words already consumed (reversed). -/
def nameCandsAux : Nat → List (List Char) → List Char →
    List (List (List Char) × List Char)
  | 0, acc, rest => [(acc.reverse, rest)]
  | k + 1, acc, rest =>
    match matchWs rest with
    | none => [(acc.reverse, rest)]
    | some r =>
      match matchWord r with
      | none => [(acc.reverse, rest)]
      | some (w, r2) => nameCandsAux k (w :: acc) r2 ++ [(acc.reverse, rest)]

/-- Numeric value of a digit character. -/
def digitVal (c : Char) : Nat := c.toNat - '0'.toNat

/-- Value of a digit string, most significant first. -/
def natOfDigits (l : List Char) : Nat := l.foldl (fun n c => n * 10 + digitVal c) 0

/-- Value of the fractional digit string `fs` in `.fs`. -/
def fracVal (fs : List Char) : ℚ := (natOfDigits fs : ℚ) / (10 : ℚ) ^ fs.length

/-- Splits of `pre` into a nonempty first part and the rest (prepended to
`suf`), longest first — the backtracking order of a greedy `\d+`-style
repetition over the run `pre`. -/
def splitsDesc (pre suf : List Char) : List (List Char × List Char) :=
  (List.range pre.length).map fun i =>
    (pre.take (pre.length - i), pre.drop (pre.length - i) ++ suf)

/-- Candidates of `(\d{1,2}(?:\.\d+)?)` at the head of the list in greedy
backtracking order: two digits before one, fraction present before absent,
longer fraction before shorter.  Each candidate is the parsed value with the
rest of the input. -/
def numCands (l : List Char) : List (ℚ × List Char) :=
  let ds := l.takeWhile Char.isDigit
  let r := l.dropWhile Char.isDigit
  let dSplits :=
    if 2 ≤ ds.length then
      [(ds.take 2, ds.drop 2 ++ r), (ds.take 1, ds.drop 1 ++ r)]
    else splitsDesc ds r
  dSplits.flatMap fun p =>
    (match p.2 with
     | '.' :: r2 =>
       (splitsDesc (r2.takeWhile Char.isDigit) (r2.dropWhile Char.isDigit)).map
         fun fp => ((natOfDigits p.1 : ℚ) + fracVal fp.1, fp.2)
     | _ => []) ++ [((natOfDigits p.1 : ℚ), p.2)]

/-- Match `\s*%` at the head of the list (the `\s*` is maximal because a
shorter run leaves a whitespace character where `%` is required). -/
def pctTail (l : List Char) : Option (List Char) :=
  match l.dropWhile jsWs with
  | '%' :: r => some r
  | _ => none

/-- Match `(\d{1,2}(?:\.\d+)?)\s*%` at the head of the list. -/
def matchNumPct (l : List Char) : Option (ℚ × List Char) :=
  (numCands l).findSome? fun c => (pctTail c.2).map fun r => (c.1, r)

/-- Attempt the whole primary pattern at the head of the list; on success
return the entry (`choice` is `clean` of the matched name, i.e. the words
joined by single spaces) and the rest of the input after the `%`. -/
def matchAt (l : List Char) : Option (Entry × List Char) :=
  match matchWord l with
  | none => none
  | some (w0, r0) =>
    (nameCandsAux 4 [w0] r0).findSome? fun c =>
      match matchWs c.2 with
      | none => none
      | some r1 =>
        match matchNumPct r1 with
        | none => none
        | some (q, r2) => some (⟨⟨List.intercalate [' '] c.1⟩, q⟩, r2)

/-- The `while ((m = re.exec(txt)) !== null)` loop: scan start positions left
to right, resume after each match, stop once `cap` entries are collected
(`if (out.length >= cap) break`).  `fuel` bounds the recursion; every step
consumes at least one character, so `fuel = l.length` reproduces the loop. -/
def scanPrimary (cap : Nat) : Nat → List Char → List Entry → List Entry
  | 0, _, acc => acc.reverse
  | _ + 1, [], acc => acc.reverse
  | fuel + 1, c :: cs, acc =>
    match matchAt (c :: cs) with
    | some (e, rest) =>
      if cap ≤ (e :: acc).length then (e :: acc).reverse
      else scanPrimary cap fuel rest (e :: acc)
    | none => scanPrimary cap fuel cs acc

/-- Attempt `(\d{1,2}(?:\.\d+)?)\s*[-–]\s*(\d{1,2}(?:\.\d+)?)\b` at the head
of the list (the leading `\b` is checked by the caller).  Backtracking order:
first number candidates, then second number candidates, then the trailing
word boundary. -/
def matchPairAt (l : List Char) : Option (ℚ × ℚ) :=
  (numCands l).findSome? fun a =>
    match a.2.dropWhile jsWs with
    | c :: r =>
      if c == '-' || c == '–' then
        (numCands (r.dropWhile jsWs)).findSome? fun b =>
          match b.2.head? with
          | some d => if isWordB d then none else some (a.1, b.1)
          | none => some (a.1, b.1)
      else none
    | [] => none

/-- `txt.match(re2)` for the fallback pattern: try every start position left
to right; the leading `\b` requires the previous character (tracked in `prev`)
not to be a word character (the first pattern character is a digit, hence a
word character). -/
def bOKOf : Option Char → Bool
  | none => true
  | some p => !isWordB p

def scanPairAux : Option Char → List Char → Option (ℚ × ℚ)
  | _, [] => none
  | prev, c :: cs =>
    match (if bOKOf prev then matchPairAt (c :: cs) else none) with
    | some ab => some ab
    | none => scanPairAux (some c) cs

/-- The body of `extractResults` for a given primary-match cap (10 in
`src/fetch-data.js`, 12 in `src/fetch-data_RTW2.js`): collect primary matches;
if none, try the `NN-NN` fallback once and emit placeholder choices "A"/"B". -/
def extractResultsL (cap : Nat) (l : List Char) : List Entry :=
  if (scanPrimary cap l.length l []).isEmpty then
    match scanPairAux none l with
    | some (a, b) => [⟨"A", a⟩, ⟨"B", b⟩]
    | none => []
  else scanPrimary cap l.length l []

/-- `extractResults` of `src/fetch-data.js:153-179` (cap 10). -/
def extractResults (txt : String) : List Entry := extractResultsL 10 txt.data

/-- `extractResults` of `src/fetch-data_RTW2.js:169-189` (cap 12). -/
def extractResultsRTW2 (txt : String) : List Entry := extractResultsL 12 txt.data

/-! ## Category classification (`inferCategory`)

`src/fetch-data.js:139-151` and `src/fetch-data_RTW2.js:155-167` (identical). -/
/-- `pat` occurs at the head of `text`. -/
def startsWithL : List Char → List Char → Bool
  | [], _ => true
  | _ :: _, [] => false
  | p :: ps, c :: cs => p == c && startsWithL ps cs

/-- `text.includes(pat)`: `pat` occurs as a contiguous substring of `text`. -/
def hasSub : List Char → List Char → Bool
  | [], pat => pat.isEmpty
  | c :: cs, pat => startsWithL pat (c :: cs) || hasSub cs pat

/-- `txt.toLowerCase()` (ASCII range, as exercised by the keyword tests). -/
def lowerData (txt : String) : List Char := txt.data.map Char.toLower

/-- The `if`-chain of `inferCategory` over the lowercased text. -/
def inferCategoryL (t : List Char) : String :=
  if hasSub t "generic ballot".data then "generic_ballot"
  else if hasSub t "approval".data then "approval"
  else if hasSub t "senate".data then "senate"
  else if hasSub t "governor".data then "governor"
  else if hasSub t "house".data then "house"
  else if hasSub t "democratic".data && hasSub t "primary".data then "dem_primary"
  else if hasSub t "republican".data && hasSub t "primary".data then "gop_primary"
  else if hasSub t "general election".data then "pres_general"
  else if hasSub t "president".data || hasSub t "presidential".data then "president"
  else "other"

/-- `inferCategory` of both scraper variants (the two copies are identical). -/
def inferCategory (txt : String) : String := inferCategoryL (lowerData txt)

/-! ## Deduplication (`dedupe`)

`src/fetch-data.js:37-47` and `src/fetch-data_RTW2.js:37-47` (identical). -/
/-- The fingerprint
`` `${p.url || ''}|${(p.results_text || '').slice(0, 160)}|${p.date_text || ''}` ``. -/
def keyOf (p : Poll) : String :=
  p.url ++ "|" ++ (⟨p.results_text.data.take 160⟩ : String) ++ "|" ++ p.date_text

/-- The loop of `dedupe`: `seen` is the set of fingerprints already added. -/
def dedupeAux : List Poll → List String → List Poll
  | [], _ => []
  | p :: ps, seen =>
    if seen.contains (keyOf p) then dedupeAux ps seen
    else p :: dedupeAux ps (keyOf p :: seen)

/-- `dedupe` of both scraper variants (the two copies are identical). -/
def dedupe (polls : List Poll) : List Poll := dedupeAux polls []

/-- The deduplication rule as the spec states it: keep each record whose
fingerprint has not appeared earlier; equivalently, keep the head and drop
every later record with the same fingerprint. -/
def dedupeSpec : List Poll → List Poll
  | [] => []
  | p :: ps => p :: dedupeSpec (ps.filter fun q => keyOf q != keyOf p)
termination_by l => l.length
decreasing_by
  simp only [List.length_cons]
  exact Nat.lt_succ_of_le (List.length_filter_le _ _)

/-! ## Per-frame extraction and failure isolation

`src/fetch-data_RTW2.js:137-339`: `extractPollsInFrame` wraps the in-frame
evaluation in `try { ... } catch (_) { return []; }`, and the `run` frame loop
concatenates each frame's non-empty contribution.  A frame evaluation either
returns a poll list or throws; this outcome is modelled as
`Except Unit (List Poll)`. -/
/-- `extractPollsInFrame`: a throwing frame contributes the empty list. -/
def extractPollsInFrame (res : Except Unit (List Poll)) : List Poll :=
  match res with
  | .ok polls => polls
  | .error _ => []

/-- The frame loop of `run` (`src/fetch-data_RTW2.js:335-339`):
`if (Array.isArray(part) && part.length) polls = polls.concat(part)`. -/
def runFrames (frames : List (Except Unit (List Poll))) : List Poll :=
  frames.foldl
    (fun polls f =>
      if (extractPollsInFrame f).isEmpty then polls
      else polls ++ extractPollsInFrame f)
    []

/-! ## Empty-results discard

`src/fetch-data.js:247-253` keeps a discovered block unless
`results.length === 0 && !/%/.test(txt)`; `src/fetch-data_RTW2.js:261-263`
keeps a block only when `results.length !== 0`.  The other record fields do
not influence the keep/discard decision, so the pipeline is modelled on the
block texts and the `results` fields of the produced records. -/
/-- Keep/discard decision of the `fetch-data.js` block loop:
`if (results.length === 0 && !/%/.test(txt)) continue;`. -/
def keepV1 (txt : String) : Bool :=
  !((extractResults txt).isEmpty && !(txt.data.contains '%'))

/-- Keep/discard decision of the `fetch-data_RTW2.js` block loop:
`if (results.length === 0) continue;`. -/
def keepV2 (txt : String) : Bool := !(extractResultsRTW2 txt).isEmpty

/-- The `results` fields of the records returned by the `fetch-data.js`
variant for a list of discovered block texts. -/
def outputResultsV1 (txts : List String) : List (List Entry) :=
  (txts.filter keepV1).map extractResults

/-- The `results` fields of the records returned by the `fetch-data_RTW2.js`
variant for a list of discovered block texts. -/
def outputResultsV2 (txts : List String) : List (List Entry) :=
  (txts.filter keepV2).map extractResultsRTW2

/-! ## Canonical URL selection

`src/fetch-data_RTW2.js:265-274` (link-anchored pass), `:303-307` (fallback
pass), and `src/fetch-data.js:254-264` (`url: a.href`).  The block's non-noise
link hrefs are the abstract input. -/
/-- External-link test of the RTW2 main pass:
`hl.startsWith('http') && !hl.includes('racetothewh.com')` on the lowercased
href. -/
def isExternalRTW (h : String) : Bool :=
  startsWithL "http".data (h.data.map Char.toLower) &&
  !hasSub (h.data.map Char.toLower) "racetothewh.com".data

/-- External-link test of the RTW2 fallback pass:
`h && h.startsWith('http') && !h.toLowerCase().includes('racetothewh.com')`
(note: the `startsWith` here is case-sensitive). -/
def isExternalFB (h : String) : Bool :=
  !h.isEmpty && startsWithL "http".data h.data &&
  !hasSub (h.data.map Char.toLower) "racetothewh.com".data

/-- URL choice of the RTW2 main pass: start from `a.href || ''`, replace by
the first external link of the block, and fall back to `links[0] || ''` only
when the result so far is empty. -/
def bestUrlRTW2 (anchorHref : String) (links : List String) : String :=
  match links.find? isExternalRTW with
  | some h => h
  | none => if anchorHref.isEmpty && !links.isEmpty then links.headD "" else anchorHref

/-- URL choice of the RTW2 fallback pass:
`links.find(external) || links[0] || ''`. -/
def bestUrlFallback (links : List String) : String :=
  match links.find? isExternalFB with
  | some h => h
  | none => links.headD ""

/-- URL choice of the `fetch-data.js` block loop: always the anchor's own
href (`url: a.href`, `src/fetch-data.js:255`). -/
def urlV1 (anchorHref : String) : String := anchorHref

/-- Modelled from the spec (§4.4): the claimed selection rule — prefer the
first external non-noise link inside the block over the anchor's own href,
fall back to any link inside the block, fall back to the empty string. -/
def selectUrlSpec (anchorHref : String) (links : List String) : String :=
  match links.find? isExternalRTW with
  | some h => h
  | none => if !anchorHref.isEmpty then anchorHref else links.headD ""

/-! ## Pollster classification (`pickPollster`)

`src/fetch-data.js:205-215` matches `/\bPollster\s*:\s*([^\n\r]+)\b/i` and
returns `clean(m[1])` (no truncation); otherwise it returns the first
non-empty line only when it is at most 48 characters and contains no `%`,
else the empty string.

`src/fetch-data_RTW2.js:214-222` scans the first 10 lines for
`/^(?:Pollster|Poll|Firm)\s*:?\s*(.+)$/i` and returns `m[1].slice(0, 100)`;
otherwise the first non-empty line truncated to 100 characters, else the
empty string. -/
/-- A character matched by `[^\n\r]`. -/
def notNL (c : Char) : Bool := !(c == '\n' || c == '\r')

/-- Split on newline characters.  Composed with per-line `clean` and the
non-empty filter below this models `txt.split(/\n+/)`: segments between
newline runs; the extra empty segments produced by splitting on single
newlines are removed by the same filter that removes blank lines. -/
def splitNL : List Char → List (List Char)
  | [] => [[]]
  | c :: cs =>
    if c == '\n' then [] :: splitNL cs
    else
      match splitNL cs with
      | [] => [[c]]
      | s :: ss => (c :: s) :: ss

/-- `txt.split(/\n+/).map(clean).filter(Boolean)`. -/
def linesOf (l : List Char) : List (List Char) :=
  ((splitNL l).map cleanL).filter fun x => !x.isEmpty

/-- Case-insensitive literal prefix strip: `stripCI pat l` removes `pat`
(compared ASCII case-insensitively) from the head of `l`. -/
def stripCI : List Char → List Char → Option (List Char)
  | [], l => some l
  | _ :: _, [] => none
  | p :: ps, c :: cs => if p.toLower == c.toLower then stripCI ps cs else none

/-- Candidates for a greedy `\s*` at the head of the list, in backtracking
order: maximal consumption first, none last. -/
def wsTries (l : List Char) : List (List Char) :=
  (List.range ((l.takeWhile jsWs).length + 1)).map fun i =>
    (l.takeWhile jsWs).drop ((l.takeWhile jsWs).length - i) ++ l.dropWhile jsWs

/-- The `\b` test between the last captured character and the next input
character: exactly one side is a word character. -/
def boundaryAfter (cap : List Char) (next : Option Char) : Bool :=
  match cap.getLast? with
  | none => false
  | some x => isWordB x != (match next with | some c => isWordB c | none => false)

/-- Match `([^\n\r]+)\b` at the head of the list, trying capture lengths from
longest to shortest (greedy `+` with backtracking against the trailing `\b`);
returns the capture. -/
def captureAt (l : List Char) : Option (List Char) :=
  (List.range (l.takeWhile notNL).length).findSome? fun i =>
    if boundaryAfter ((l.takeWhile notNL).take ((l.takeWhile notNL).length - i))
        (((l.takeWhile notNL).drop ((l.takeWhile notNL).length - i) ++
          l.dropWhile notNL).head?) then
      some ((l.takeWhile notNL).take ((l.takeWhile notNL).length - i))
    else none

/-- Attempt `Pollster\s*:\s*([^\n\r]+)\b` (case-insensitive) at the head of
the list (the leading `\b` is checked by the caller); returns `m[1]`. -/
def pollsterAt (l : List Char) : Option (List Char) :=
  match stripCI "pollster".data l with
  | none => none
  | some r1 =>
    match r1.dropWhile jsWs with
    | ':' :: r2 => (wsTries r2).findSome? captureAt
    | _ => none

/-- `txt.match(/\bPollster\s*:\s*([^\n\r]+)\b/i)`: try every start position
left to right; `\b` before the literal requires the previous character not to
be a word character. -/
def findPollster : Option Char → List Char → Option (List Char)
  | _, [] => none
  | prev, c :: cs =>
    match (if bOKOf prev then pollsterAt (c :: cs) else none) with
    | some cap => some cap
    | none => findPollster (some c) cs

/-- `pickPollster` of `src/fetch-data.js:205-215`. -/
def pickPollster (txt : String) : String :=
  match findPollster none txt.data with
  | some cap => ⟨cleanL cap⟩
  | none =>
    match linesOf txt.data with
    | [] => ""
    | first :: _ =>
      if first.length ≤ 48 && !first.contains '%' then (⟨first⟩ : String) else ""

/-- Match `\s*:?\s*(.+)$` after the label, in backtracking order: first `\s*`
maximal first, colon present before absent, second `\s*` maximal first; the
capture is the (non-empty) remainder of the line. -/
def labelTail (r : List Char) : Option (List Char) :=
  (wsTries r).findSome? fun r1 =>
    (match r1 with
     | ':' :: r2 => [r2, r1]
     | _ => [r1]).findSome? fun r2 : List Char =>
      (wsTries r2).findSome? fun r3 : List Char =>
        if r3.isEmpty then none else some r3

/-- `line.match(/^(?:Pollster|Poll|Firm)\s*:?\s*(.+)$/i)`: the alternation is
tried left to right with full backtracking into the tail. -/
def labelMatch (line : List Char) : Option (List Char) :=
  ["Pollster".data, "Poll".data, "Firm".data].findSome? fun lab =>
    match stripCI lab line with
    | some r => labelTail r
    | none => none

/-- `pickPollster` of `src/fetch-data_RTW2.js:214-222`. -/
def pickPollsterRTW2 (txt : String) : String :=
  match ((linesOf txt.data).take 10).findSome? labelMatch with
  | some cap => ⟨cap.take 100⟩
  | none =>
    match linesOf txt.data with
    | [] => ""
    | first :: _ => ⟨first.take 100⟩

theorem length_dropWhile_le (p : Char → Bool) :
    ∀ l : List Char, (l.dropWhile p).length ≤ l.length := by
  intro l
  induction l with
  | nil => simp [List.dropWhile]
  | cons c cs ih =>
    by_cases h : p c
    · simp [List.dropWhile, h]; omega
    · simp [List.dropWhile, h]

theorem noDoubleWs_cons (a : Char) (l : List Char) :
    noDoubleWs (a :: l) =
      ((match l with | [] => true | b :: _ => !(jsWs a && jsWs b)) && noDoubleWs l) := by
  cases l <;> simp [noDoubleWs]

theorem noDoubleWs_tail {a : Char} {l : List Char}
    (h : noDoubleWs (a :: l) = true) : noDoubleWs l = true := by
  rw [noDoubleWs_cons, Bool.and_eq_true] at h
  exact h.2

theorem head?_dropWhile (p : Char → Bool) :
    ∀ l : List Char, ∀ c, (l.dropWhile p).head? = some c → p c = false := by
  intro l
  induction l with
  | nil => intro c h; simp [List.dropWhile] at h
  | cons a as ih =>
    intro c h
    by_cases hp : p a
    · rw [List.dropWhile_cons_of_pos hp] at h; exact ih c h
    · rw [List.dropWhile_cons_of_neg hp] at h
      simp at h
      rw [← h]
      simpa using hp

theorem collapseWs_head? :
    ∀ l : List Char, (collapseWs l).head? =
      l.head?.map (fun c => if jsWs c then ' ' else c) := by
  intro l
  induction l with
  | nil => simp [collapseWs]
  | cons c cs ih =>
    by_cases h : jsWs c
    · by_cases hcs : headWsB cs = true
      · rw [collapseWs, if_pos h, if_pos hcs, ih]
        rcases cs with _ | ⟨d, ds⟩
        · simp [headWsB] at hcs
        · simp only [headWsB] at hcs
          simp [h, hcs]
      · rw [collapseWs, if_pos h, if_neg hcs]
        simp [h]
    · simp [collapseWs, h]

theorem collapse_noDouble (l : List Char) : noDoubleWs (collapseWs l) = true := by
  induction l with
  | nil => simp [collapseWs, noDoubleWs]
  | cons c cs ih =>
    by_cases h : jsWs c
    · by_cases hcs : headWsB cs = true
      · rw [collapseWs, if_pos h, if_pos hcs]; exact ih
      · rw [collapseWs, if_pos h, if_neg hcs, noDoubleWs_cons, Bool.and_eq_true]
        refine ⟨?_, ih⟩
        rcases he : collapseWs cs with _ | ⟨x, xs⟩
        · simp
        · have hx := collapseWs_head? cs
          rw [he] at hx
          rcases cs with _ | ⟨d, ds⟩
          · simp [collapseWs] at he
          · simp only [headWsB] at hcs
            simp only [Bool.not_eq_true] at hcs
            simp [hcs] at hx
            subst hx
            simp [hcs]
    · rw [collapseWs, if_neg h, noDoubleWs_cons, Bool.and_eq_true]
      refine ⟨?_, ih⟩
      rcases he : collapseWs cs with _ | ⟨x, xs⟩
      · simp
      · have hc : jsWs c = false := by simpa using h
        simp [hc]

theorem collapse_wsAllSpace (l : List Char) : wsAllSpace (collapseWs l) = true := by
  induction l with
  | nil => simp [collapseWs, wsAllSpace]
  | cons c cs ih =>
    by_cases h : jsWs c
    · by_cases hcs : headWsB cs = true
      · rw [collapseWs, if_pos h, if_pos hcs]; exact ih
      · rw [collapseWs, if_pos h, if_neg hcs]
        simp only [wsAllSpace, List.all_cons, Bool.and_eq_true] at *
        exact ⟨by simp, ih⟩
    · rw [collapseWs, if_neg h]
      simp only [wsAllSpace, List.all_cons, Bool.and_eq_true] at *
      refine ⟨?_, ih⟩
      have hc : jsWs c = false := by simpa using h
      simp [hc]

theorem noDoubleWs_append_left {l t : List Char}
    (h : noDoubleWs (l ++ t) = true) : noDoubleWs l = true := by
  induction l with
  | nil => simp [noDoubleWs]
  | cons a as ih =>
    rw [List.cons_append, noDoubleWs_cons, Bool.and_eq_true] at h
    rw [noDoubleWs_cons, Bool.and_eq_true]
    refine ⟨?_, ih h.2⟩
    rcases has : as with _ | ⟨b, bs⟩
    · simp
    · have := h.1
      rw [has] at this
      simpa using this

theorem noDoubleWs_append_right {t l : List Char}
    (h : noDoubleWs (t ++ l) = true) : noDoubleWs l = true := by
  induction t with
  | nil => simpa using h
  | cons a as ih =>
    rw [List.cons_append] at h
    exact ih (noDoubleWs_tail h)

theorem wsAllSpace_append {l t : List Char}
    (h : wsAllSpace (l ++ t) = true) : wsAllSpace l = true ∧ wsAllSpace t = true := by
  simp only [wsAllSpace, List.all_append, Bool.and_eq_true] at h
  exact h

theorem exists_append_dropWhile (p : Char → Bool) :
    ∀ l : List Char, ∃ t, l = t ++ l.dropWhile p := by
  intro l
  induction l with
  | nil => exact ⟨[], rfl⟩
  | cons c cs ih =>
    by_cases h : p c
    · rcases ih with ⟨t, ht⟩
      exact ⟨c :: t, by rw [List.dropWhile_cons_of_pos h, List.cons_append, ← ht]⟩
    · exact ⟨[], by rw [List.dropWhile_cons_of_neg h]; simp⟩

/-- `trimList l` is obtained from `l` by removing a whitespace run from each
end: there are `t₁ t₂` with `l = t₁ ++ trimList l ++ t₂`. -/
theorem trimList_infix (l : List Char) :
    ∃ t₁ t₂, l = t₁ ++ trimList l ++ t₂ := by
  rcases exists_append_dropWhile jsWs l with ⟨t₁, h₁⟩
  rcases exists_append_dropWhile jsWs (l.dropWhile jsWs).reverse with ⟨t₂, h₂⟩
  refine ⟨t₁, t₂.reverse, ?_⟩
  have hmid : l.dropWhile jsWs = trimList l ++ t₂.reverse := by
    have := congrArg List.reverse h₂
    simpa [trimList, List.reverse_append] using this
  calc l = t₁ ++ l.dropWhile jsWs := h₁
    _ = t₁ ++ (trimList l ++ t₂.reverse) := by rw [hmid]
    _ = t₁ ++ trimList l ++ t₂.reverse := by rw [List.append_assoc]

theorem cleanL_noDouble (l : List Char) : noDoubleWs (cleanL l) = true := by
  rcases trimList_infix (collapseWs l) with ⟨t₁, t₂, h⟩
  have h0 := collapse_noDouble l
  rw [h] at h0
  exact noDoubleWs_append_left (noDoubleWs_append_right (by rwa [List.append_assoc] at h0))

theorem cleanL_wsAllSpace (l : List Char) : wsAllSpace (cleanL l) = true := by
  rcases trimList_infix (collapseWs l) with ⟨t₁, t₂, h⟩
  have h0 := collapse_wsAllSpace l
  rw [h] at h0
  exact (wsAllSpace_append (wsAllSpace_append h0).1).2

theorem cleanL_head (l : List Char) : headWsB (cleanL l) = false := by
  rcases he : cleanL l with _ | ⟨c, r⟩
  · rfl
  · rcases exists_append_dropWhile jsWs ((collapseWs l).dropWhile jsWs).reverse with ⟨t, ht⟩
    have hy : (collapseWs l).dropWhile jsWs = cleanL l ++ t.reverse := by
      have := congrArg List.reverse ht
      simpa [cleanL, trimList, List.reverse_append] using this
    rw [he] at hy
    have : ((collapseWs l).dropWhile jsWs).head? = some c := by
      rw [hy]; simp
    have hc := head?_dropWhile jsWs (collapseWs l) c this
    simp [headWsB, hc]

theorem cleanL_last (l : List Char) : headWsB (cleanL l).reverse = false := by
  have hrev : (cleanL l).reverse = ((collapseWs l).dropWhile jsWs).reverse.dropWhile jsWs := by
    simp [cleanL, trimList]
  rcases he : (cleanL l).reverse with _ | ⟨c, r⟩
  · rfl
  · have : (((collapseWs l).dropWhile jsWs).reverse.dropWhile jsWs).head? = some c := by
      rw [← hrev, he]; simp
    have hc := head?_dropWhile jsWs ((collapseWs l).dropWhile jsWs).reverse c this
    simp [headWsB, hc]

theorem dropWhile_of_head_false {l : List Char} (h : headWsB l = false) :
    l.dropWhile jsWs = l := by
  cases l with
  | nil => rfl
  | cons c cs =>
    simp only [headWsB] at h
    exact List.dropWhile_cons_of_neg (by simp [h])

theorem trimList_of_trimmed {l : List Char}
    (h1 : headWsB l = false) (h2 : headWsB l.reverse = false) : trimList l = l := by
  rw [trimList, dropWhile_of_head_false h1, dropWhile_of_head_false h2, List.reverse_reverse]

theorem collapse_of_collapsed : ∀ l : List Char,
    noDoubleWs l = true → wsAllSpace l = true → collapseWs l = l := by
  intro l
  induction l with
  | nil => intro _ _; simp [collapseWs]
  | cons c cs ih =>
    intro hnd hws
    have htl := ih (noDoubleWs_tail hnd) (by
      simp only [wsAllSpace, List.all_cons, Bool.and_eq_true] at hws
      exact hws.2)
    by_cases h : jsWs c
    · have hc : c = ' ' := by
        simp only [wsAllSpace, List.all_cons, Bool.and_eq_true] at hws
        have := hws.1
        simp [h] at this
        exact this
      have hcs : headWsB cs = false := by
        cases cs with
        | nil => rfl
        | cons b bs =>
          rw [noDoubleWs_cons] at hnd
          simp only [Bool.and_eq_true] at hnd
          have := hnd.1
          simp only [h, Bool.true_and] at this
          simpa [headWsB] using this
      rw [collapseWs, if_pos h, if_neg (by simp [hcs]), htl, hc]
    · rw [collapseWs, if_neg h, htl]

theorem cleanL_idem (l : List Char) : cleanL (cleanL l) = cleanL l := by
  have h1 : collapseWs (cleanL l) = cleanL l :=
    collapse_of_collapsed _ (cleanL_noDouble l) (cleanL_wsAllSpace l)
  rw [cleanL, h1, trimList_of_trimmed (cleanL_head l) (cleanL_last l)]

/-- C6: the Text Normalizer `clean` is total over arbitrary input (empty or
undefined input yields the empty string), its output contains no two
consecutive whitespace characters (in particular no double space) and no
leading or trailing whitespace, and it is idempotent. -/
theorem clean_total_normalized_idempotent :
    cleanOpt none = "" ∧ clean "" = "" ∧
    (∀ s : String, noDoubleWs (clean s).data = true) ∧
    (∀ s : String, headWsB (clean s).data = false) ∧
    (∀ s : String, headWsB (clean s).data.reverse = false) ∧
    (∀ s : String, clean (clean s) = clean s) := by
  refine ⟨by decide, by decide, ?_, ?_, ?_, ?_⟩
  · intro s; exact cleanL_noDouble s.data
  · intro s; exact cleanL_head s.data
  · intro s; exact cleanL_last s.data
  · intro s
    show (⟨cleanL (cleanL s.data)⟩ : String) = ⟨cleanL s.data⟩
    rw [cleanL_idem]

theorem digitVal_le {c : Char} (h : c.isDigit = true) : digitVal c ≤ 9 := by
  simp only [Char.isDigit, Bool.and_eq_true, decide_eq_true_eq] at h
  have h1 : (48 : Nat) ≤ c.val.toNat := h.1
  have h2 : c.val.toNat ≤ 57 := h.2
  have h0 : digitVal c = c.val.toNat - 48 := rfl
  omega

theorem foldl_digits_lt :
    ∀ l : List Char, (∀ c ∈ l, c.isDigit = true) → ∀ a : Nat,
      l.foldl (fun n c => n * 10 + digitVal c) a < (a + 1) * 10 ^ l.length := by
  intro l
  induction l with
  | nil => intro _ a; simp
  | cons c cs ih =>
    intro h a
    have hc : digitVal c ≤ 9 := digitVal_le (h c (by simp))
    have h2 := ih (fun d hd => h d (by simp [hd])) (a * 10 + digitVal c)
    calc (c :: cs).foldl (fun n c => n * 10 + digitVal c) a
        = cs.foldl (fun n c => n * 10 + digitVal c) (a * 10 + digitVal c) := by
          simp [List.foldl_cons]
      _ < (a * 10 + digitVal c + 1) * 10 ^ cs.length := h2
      _ ≤ ((a + 1) * 10) * 10 ^ cs.length := by
          have : a * 10 + digitVal c + 1 ≤ (a + 1) * 10 := by omega
          exact Nat.mul_le_mul_right _ this
      _ = (a + 1) * 10 ^ (c :: cs).length := by
          simp [List.length_cons, pow_succ]
          ring

theorem natOfDigits_lt {l : List Char} (h : ∀ c ∈ l, c.isDigit = true) :
    natOfDigits l < 10 ^ l.length := by
  have := foldl_digits_lt l h 0
  simpa [natOfDigits] using this

theorem natOfDigits_le_99 {l : List Char} (h : ∀ c ∈ l, c.isDigit = true)
    (hl : l.length ≤ 2) : natOfDigits l ≤ 99 := by
  have h1 := natOfDigits_lt h
  have h2 : (10 : Nat) ^ l.length ≤ 10 ^ 2 := Nat.pow_le_pow_right (by norm_num) hl
  omega

theorem fracVal_nonneg (fs : List Char) : 0 ≤ fracVal fs := by
  unfold fracVal
  positivity

theorem fracVal_lt_one {fs : List Char} (h : ∀ c ∈ fs, c.isDigit = true) :
    fracVal fs < 1 := by
  unfold fracVal
  rw [div_lt_one (by positivity)]
  have := natOfDigits_lt h
  calc (natOfDigits fs : ℚ) < ((10 ^ fs.length : Nat) : ℚ) := by exact_mod_cast this
    _ = (10 : ℚ) ^ fs.length := by push_cast; ring

theorem splitsDesc_mem {pre suf : List Char} {p : List Char × List Char}
    (h : p ∈ splitsDesc pre suf) : ∃ k, p.1 = pre.take k := by
  simp only [splitsDesc, List.mem_map, List.mem_range] at h
  rcases h with ⟨i, _, hp⟩
  exact ⟨pre.length - i, by rw [← hp]⟩

theorem numCands_bound {l : List Char} {q : ℚ} {rest : List Char}
    (h : (q, rest) ∈ numCands l) : 0 ≤ q ∧ q < 100 := by
  unfold numCands at h
  rw [List.mem_flatMap] at h
  rcases h with ⟨p, hp, hq⟩
  have hdigits : ∀ c ∈ l.takeWhile Char.isDigit, c.isDigit = true :=
    fun c hc => List.mem_takeWhile_imp hc
  have hp1 : (∀ c ∈ p.1, c.isDigit = true) ∧ p.1.length ≤ 2 := by
    by_cases h2 : 2 ≤ (l.takeWhile Char.isDigit).length
    · rw [if_pos h2] at hp
      simp only [List.mem_cons, List.not_mem_nil, or_false] at hp
      rcases hp with hp | hp <;> rw [hp] <;> dsimp only <;>
        refine ⟨fun c hc => hdigits c (List.take_subset _ _ hc), ?_⟩
      · exact List.length_take_le 2 _
      · have := List.length_take_le 1 (l.takeWhile Char.isDigit)
        omega
    · rw [if_neg h2] at hp
      rcases splitsDesc_mem hp with ⟨k, hk⟩
      refine ⟨fun c hc => hdigits c (by rw [hk] at hc; exact List.take_subset _ _ hc), ?_⟩
      rw [hk, List.length_take]
      omega
  have hbase : (0 : ℚ) ≤ (natOfDigits p.1 : ℚ) ∧ (natOfDigits p.1 : ℚ) ≤ 99 := by
    constructor
    · positivity
    · exact_mod_cast natOfDigits_le_99 hp1.1 hp1.2
  rw [List.mem_append] at hq
  rcases hq with hq | hq
  · split at hq
    · next r2 =>
      simp only [List.mem_map] at hq
      rcases hq with ⟨fp, hfp, heq⟩
      rcases splitsDesc_mem hfp with ⟨k, hk⟩
      have hfd : ∀ c ∈ fp.1, c.isDigit = true := fun c hc => by
        rw [hk] at hc
        exact List.mem_takeWhile_imp (List.take_subset _ _ hc)
      have hq1 : q = (natOfDigits p.1 : ℚ) + fracVal fp.1 := by
        have := congrArg Prod.fst heq
        simpa using this.symm
      rw [hq1]
      have hf0 := fracVal_nonneg fp.1
      have hf1 := fracVal_lt_one hfd
      constructor
      · linarith [hbase.1]
      · linarith [hbase.2]
    · simp at hq
  · simp only [List.mem_singleton, Prod.mk.injEq] at hq
    rw [hq.1]
    exact ⟨hbase.1, by linarith [hbase.2]⟩

theorem matchNumPct_bound {l : List Char} {q : ℚ} {r : List Char}
    (h : matchNumPct l = some (q, r)) : 0 ≤ q ∧ q < 100 := by
  unfold matchNumPct at h
  rcases List.exists_of_findSome?_eq_some h with ⟨c, hc, he⟩
  rcases hp : pctTail c.2 with _ | r2 <;> rw [hp] at he
  · simp at he
  · have he2 : (some (c.1, r2) : Option (ℚ × List Char)) = some (q, r) := he
    simp only [Option.some.injEq, Prod.mk.injEq] at he2
    rcases c with ⟨cq, crest⟩
    simp only at he2
    rw [← he2.1]
    exact numCands_bound hc

theorem matchAt_bound {l : List Char} {e : Entry} {rest : List Char}
    (h : matchAt l = some (e, rest)) : 0 ≤ e.pct ∧ e.pct < 100 := by
  unfold matchAt at h
  split at h
  · exact absurd h (by simp)
  · rcases List.exists_of_findSome?_eq_some h with ⟨c, hc, he⟩
    split at he
    · exact absurd he (by simp)
    · split at he
      · exact absurd he (by simp)
      · next q r2 hn =>
        simp only [Option.some.injEq, Prod.mk.injEq] at he
        have hpct : e.pct = q := by rw [← he.1]
        rw [hpct]
        exact matchNumPct_bound hn

theorem scanPrimary_bound (cap : Nat) :
    ∀ fuel l acc, (∀ e ∈ acc, 0 ≤ Entry.pct e ∧ Entry.pct e < 100) →
      ∀ e ∈ scanPrimary cap fuel l acc, 0 ≤ Entry.pct e ∧ Entry.pct e < 100 := by
  intro fuel
  induction fuel with
  | zero =>
    intro l acc hacc e he
    rw [scanPrimary, List.mem_reverse] at he
    exact hacc e he
  | succ n ih =>
    intro l acc hacc e he
    cases l with
    | nil =>
      rw [scanPrimary, List.mem_reverse] at he
      exact hacc e he
    | cons c cs =>
      rw [scanPrimary] at he
      split at he
      · next e1 rest hm =>
        have hnew : ∀ x ∈ e1 :: acc, 0 ≤ Entry.pct x ∧ Entry.pct x < 100 := by
          intro x hx
          rcases List.mem_cons.mp hx with hx | hx
          · rw [hx]; exact matchAt_bound hm
          · exact hacc x hx
        split at he
        · rw [List.mem_reverse] at he
          exact hnew e he
        · exact ih rest (e1 :: acc) hnew e he
      · exact ih cs acc hacc e he

theorem matchPairAt_bound {l : List Char} {a b : ℚ}
    (h : matchPairAt l = some (a, b)) :
    (0 ≤ a ∧ a < 100) ∧ (0 ≤ b ∧ b < 100) := by
  unfold matchPairAt at h
  rcases List.exists_of_findSome?_eq_some h with ⟨c1, hc1, he⟩
  split at he
  · split at he
    · rcases List.exists_of_findSome?_eq_some he with ⟨c2, hc2, he2⟩
      have hab : c1.1 = a ∧ c2.1 = b := by
        split at he2
        · split at he2
          · simp at he2
          · simp only [Option.some.injEq, Prod.mk.injEq] at he2
            exact he2
        · simp only [Option.some.injEq, Prod.mk.injEq] at he2
          exact he2
      rcases c1 with ⟨q1, r1⟩
      rcases c2 with ⟨q2, r2⟩
      simp only at hab
      rw [← hab.1, ← hab.2]
      exact ⟨numCands_bound hc1, numCands_bound hc2⟩
    · simp at he
  · simp at he

theorem scanPairAux_bound :
    ∀ (l : List Char) (prev : Option Char) {a b : ℚ},
      scanPairAux prev l = some (a, b) →
      (0 ≤ a ∧ a < 100) ∧ (0 ≤ b ∧ b < 100) := by
  intro l
  induction l with
  | nil => intro prev a b h; rw [scanPairAux] at h; exact absurd h (by simp)
  | cons c cs ih =>
    intro prev a b h
    rw [scanPairAux] at h
    split at h
    · next ab hm =>
      simp only [Option.some.injEq] at h
      by_cases hb : bOKOf prev = true
      · rw [if_pos hb] at hm
        rw [h] at hm
        exact matchPairAt_bound hm
      · rw [if_neg hb] at hm
        simp at hm
    · exact ih (some c) h

theorem scanPrimary_length_le (cap : Nat) :
    ∀ fuel l acc, acc.length < cap →
      (scanPrimary cap fuel l acc).length ≤ cap := by
  intro fuel
  induction fuel with
  | zero =>
    intro l acc hacc
    rw [scanPrimary]
    simp
    omega
  | succ n ih =>
    intro l acc hacc
    cases l with
    | nil =>
      rw [scanPrimary]
      simp
      omega
    | cons c cs =>
      rw [scanPrimary]
      split
      · next e1 rest hm =>
        split
        · next hcap =>
          simp
          omega
        · next hcap =>
          exact ih rest (e1 :: acc) (by simp at hcap ⊢; omega)
      · exact ih cs acc hacc

/-- C3: primary results extraction.  On the spec's example text the two
name-percentage pairs are extracted in order in both variants, and the output
of `extractResults` is capped at 10 entries (`src/fetch-data.js`) and 12
entries (`src/fetch-data_RTW2.js`). -/
theorem extractResults_example_and_cap :
    extractResults "Smith 47% Jones 43%" = [⟨"Smith", 47⟩, ⟨"Jones", 43⟩] ∧
    extractResultsRTW2 "Smith 47% Jones 43%" = [⟨"Smith", 47⟩, ⟨"Jones", 43⟩] ∧
    (∀ txt : String, (extractResults txt).length ≤ 10) ∧
    (∀ txt : String, (extractResultsRTW2 txt).length ≤ 12) := by
  refine ⟨by decide, by decide, ?_, ?_⟩
  · intro txt
    unfold extractResults extractResultsL
    split
    · split
      · simp
      · simp
    · exact scanPrimary_length_le 10 txt.data.length txt.data [] (by simp)
  · intro txt
    unfold extractResultsRTW2 extractResultsL
    split
    · split
      · simp
      · simp
    · exact scanPrimary_length_le 12 txt.data.length txt.data [] (by simp)

/-- C4: the `NN-NN` two-number fallback is used if and only if the primary
percentage pattern produced zero matches, and when it fires it produces
exactly the two placeholder entries labelled "A" and "B" with the two matched
numbers.  Stated for an arbitrary primary cap, which covers both
`extractResults` variants (cap 10 and cap 12). -/
theorem extractResults_fallback_iff :
    (∀ (cap : Nat) (l : List Char) (a b : ℚ),
        scanPrimary cap l.length l [] = [] → scanPairAux none l = some (a, b) →
        extractResultsL cap l = [⟨"A", a⟩, ⟨"B", b⟩]) ∧
    (∀ (cap : Nat) (l : List Char),
        scanPrimary cap l.length l [] = [] → scanPairAux none l = none →
        extractResultsL cap l = []) ∧
    (∀ (cap : Nat) (l : List Char),
        scanPrimary cap l.length l [] ≠ [] →
        extractResultsL cap l = scanPrimary cap l.length l []) := by
  refine ⟨?_, ?_, ?_⟩
  · intro cap l a b h1 h2
    unfold extractResultsL
    rw [h1, h2]
    simp
  · intro cap l h1 h2
    unfold extractResultsL
    rw [h1, h2]
    simp
  · intro cap l h1
    unfold extractResultsL
    rw [if_neg (by simpa using h1)]

/-- Witness for C4: the spec's fallback example, no `%` but a `47-43`
shorthand. -/
theorem extractResults_fallback_iff_witness :
    extractResults "Quinnipiac 47-43" = [⟨"A", 47⟩, ⟨"B", 43⟩] :=
  extractResults_fallback_iff.1 10 ("Quinnipiac 47-43").data 47 43 (by decide) (by decide)

/-- C5: every entry produced by `extractResults` (either variant) has a
percentage in the interval `[0, 100]`; every value matched by the digit
patterns parses to a (finite) rational, so no entry is ever dropped or
inserted as NaN. -/
theorem extractResults_pct_in_range :
    (∀ (txt : String) (e : Entry), e ∈ extractResults txt → 0 ≤ e.pct ∧ e.pct ≤ 100) ∧
    (∀ (txt : String) (e : Entry), e ∈ extractResultsRTW2 txt → 0 ≤ e.pct ∧ e.pct ≤ 100) := by
  have key : ∀ (cap : Nat) (l : List Char) (e : Entry),
      e ∈ extractResultsL cap l → 0 ≤ e.pct ∧ e.pct ≤ 100 := by
    intro cap l e he
    unfold extractResultsL at he
    split at he
    · split at he
      · next a b hp =>
        have hab := scanPairAux_bound l none hp
        simp only [List.mem_cons, List.not_mem_nil, or_false] at he
        rcases he with he | he <;> rw [he]
        · exact ⟨hab.1.1, le_of_lt hab.1.2⟩
        · exact ⟨hab.2.1, le_of_lt hab.2.2⟩
      · simp at he
    · have := scanPrimary_bound cap l.length l [] (by simp) e he
      exact ⟨this.1, le_of_lt this.2⟩
  exact ⟨fun txt e he => key 10 txt.data e he, fun txt e he => key 12 txt.data e he⟩

/-- Witness for C5 at a concrete extraction. -/
theorem extractResults_pct_in_range_witness :
    0 ≤ (⟨"Smith", 47⟩ : Entry).pct ∧ (⟨"Smith", 47⟩ : Entry).pct ≤ 100 :=
  extractResults_pct_in_range.1 "Smith 47% Jones 43%" ⟨"Smith", 47⟩ (by decide)

/-- C2: category classification is first-match-wins over the fixed priority
order: text containing both "generic ballot" and "president" classifies as
`generic_ballot`; text matching none of the keyword conditions classifies as
the default `other`; and the result is always one of the ten enum values. -/
theorem inferCategory_priority_default_enum :
    (∀ txt : String,
        hasSub (lowerData txt) "generic ballot".data = true →
        hasSub (lowerData txt) "president".data = true →
        inferCategory txt = "generic_ballot") ∧
    (∀ txt : String,
        hasSub (lowerData txt) "generic ballot".data = false →
        hasSub (lowerData txt) "approval".data = false →
        hasSub (lowerData txt) "senate".data = false →
        hasSub (lowerData txt) "governor".data = false →
        hasSub (lowerData txt) "house".data = false →
        (hasSub (lowerData txt) "democratic".data && hasSub (lowerData txt) "primary".data) = false →
        (hasSub (lowerData txt) "republican".data && hasSub (lowerData txt) "primary".data) = false →
        hasSub (lowerData txt) "general election".data = false →
        (hasSub (lowerData txt) "president".data || hasSub (lowerData txt) "presidential".data) = false →
        inferCategory txt = "other") ∧
    (∀ txt : String, inferCategory txt ∈
      ["generic_ballot", "approval", "senate", "governor", "house", "dem_primary",
       "gop_primary", "pres_general", "president", "other"]) := by
  refine ⟨?_, ?_, ?_⟩
  · intro txt h1 _
    unfold inferCategory inferCategoryL
    rw [if_pos h1]
  · intro txt h1 h2 h3 h4 h5 h6 h7 h8 h9
    unfold inferCategory inferCategoryL
    rw [if_neg (by simp [h1]), if_neg (by simp [h2]), if_neg (by simp [h3]),
        if_neg (by simp [h4]), if_neg (by simp [h5]), if_neg (by simp [h6]),
        if_neg (by simp [h7]), if_neg (by simp [h8]), if_neg (by simp [h9])]
  · intro txt
    unfold inferCategory inferCategoryL
    repeat' split
    all_goals simp

/-- Witness for C2: a text with both keywords classifies as `generic_ballot`,
and a keyword-free text classifies as `other`. -/
theorem inferCategory_priority_default_enum_witness :
    inferCategory "Generic Ballot or President?" = "generic_ballot" ∧
    inferCategory "hello world" = "other" :=
  ⟨inferCategory_priority_default_enum.1 "Generic Ballot or President?" (by decide) (by decide),
   inferCategory_priority_default_enum.2.1 "hello world" (by decide) (by decide) (by decide)
     (by decide) (by decide) (by decide) (by decide) (by decide) (by decide)⟩

theorem dedupeAux_eq_spec :
    ∀ (n : Nat) (l : List Poll) (seen : List String), l.length ≤ n →
      dedupeAux l seen = dedupeSpec (l.filter fun p => !seen.contains (keyOf p)) := by
  intro n
  induction n with
  | zero =>
    intro l seen hl
    rw [List.length_eq_zero.mp (Nat.le_zero.mp hl)]
    rw [dedupeAux, List.filter_nil, dedupeSpec]
  | succ n ih =>
    intro l seen hl
    cases l with
    | nil => rw [dedupeAux, List.filter_nil, dedupeSpec]
    | cons p ps =>
      simp only [List.length_cons, Nat.succ_le_succ_iff] at hl
      by_cases hc : seen.contains (keyOf p) = true
      · rw [dedupeAux, if_pos hc, List.filter_cons_of_neg (by simp only [hc]; decide)]
        exact ih ps seen hl
      · have hcf : seen.contains (keyOf p) = false := by simpa using hc
        rw [dedupeAux, if_neg hc,
          List.filter_cons_of_pos (by simp only [hcf]; decide), dedupeSpec]
        congr 1
        rw [List.filter_filter, ih ps (keyOf p :: seen) hl]
        congr 1
        apply List.filter_congr
        intro q _
        simp only [List.contains_cons, Bool.not_or, bne]

theorem dedupeAux_sublist :
    ∀ (l : List Poll) (seen : List String), (dedupeAux l seen).Sublist l := by
  intro l
  induction l with
  | nil => intro seen; rw [dedupeAux]
  | cons p ps ih =>
    intro seen
    rw [dedupeAux]
    split
    · exact (ih seen).cons p
    · exact (ih (keyOf p :: seen)).cons₂ p

/-- C7: `dedupe` keeps exactly the records whose fingerprint (url, first 160
characters of `results_text`, `date_text`, joined by `|`) has not appeared
earlier: it equals the keep-first-per-fingerprint specification, and its
output is a sublist of the input (original relative order, first occurrence
surviving). -/
theorem dedupe_first_occurrence_stable :
    (∀ l : List Poll, dedupe l = dedupeSpec l) ∧
    (∀ l : List Poll, (dedupe l).Sublist l) := by
  constructor
  · intro l
    unfold dedupe
    rw [dedupeAux_eq_spec l.length l [] le_rfl]
    congr 1
    simp
  · intro l
    exact dedupeAux_sublist l []

theorem runFrames_foldl (frames : List (Except Unit (List Poll))) :
    ∀ acc : List Poll,
      frames.foldl
        (fun polls f =>
          if (extractPollsInFrame f).isEmpty then polls
          else polls ++ extractPollsInFrame f)
        acc = acc ++ ((frames.filterMap Except.toOption).flatten) := by
  induction frames with
  | nil => intro acc; simp
  | cons f fs ih =>
    intro acc
    rw [List.foldl_cons]
    rcases f with e | polls
    · rw [show extractPollsInFrame (Except.error e) = [] from rfl,
        if_pos (show ([] : List Poll).isEmpty = true from rfl), ih acc]
      simp [Except.toOption]
    · rw [show extractPollsInFrame (Except.ok polls) = polls from rfl]
      by_cases hp : polls.isEmpty = true
      · rw [if_pos hp, ih acc]
        have hnil : polls = [] := by simpa using hp
        simp [hnil, Except.toOption]
      · rw [if_neg hp, ih (acc ++ polls)]
        simp [Except.toOption]

/-- C10: a failing frame never aborts the pass: an erroring frame contributes
the empty list, and the concatenated result of the frame loop equals the
concatenation of the successful frames' lists, in order. -/
theorem runFrames_isolates_failures :
    (∀ e : Unit, extractPollsInFrame (.error e) = []) ∧
    (∀ frames : List (Except Unit (List Poll)),
      runFrames frames = (frames.filterMap Except.toOption).flatten) := by
  constructor
  · intro e; rfl
  · intro frames
    unfold runFrames
    rw [runFrames_foldl frames []]
    simp

/-- Counterexample to C1: in the `fetch-data.js` variant a discovered block
whose text contains `%` is kept even when its extracted results sequence is
empty, so a record with empty `results` reaches the output. -/
theorem discard_empty_results_counterexample :
    outputResultsV1 ["senate poll % result pending"] = [[]] := by decide

/-- C1 (amended): in the `fetch-data_RTW2.js` variant every returned record
has non-empty `results`; in the `fetch-data.js` variant a block whose text
contains `%` is kept regardless of whether its results are empty (and every
block chosen by that variant's discovery contains `%`). -/
theorem discard_empty_results_amended :
    (∀ (txts : List String) (r : List Entry), r ∈ outputResultsV2 txts → r ≠ []) ∧
    (∀ txt : String, txt.data.contains '%' = true → keepV1 txt = true) := by
  constructor
  · intro txts r hr
    simp only [outputResultsV2, List.mem_map] at hr
    rcases hr with ⟨t, ht, hrt⟩
    have hk := (List.mem_filter.mp ht).2
    unfold keepV2 at hk
    rw [← hrt]
    intro hnil
    rw [hnil] at hk
    simp at hk
  · intro txt h
    unfold keepV1
    simp only [Bool.not_eq_true', h, Bool.not_true, Bool.and_false]

/-- Witness for the amended C1, at concrete block texts. -/
theorem discard_empty_results_amended_witness :
    ([⟨"Smith", 47⟩] : List Entry) ≠ [] ∧
    keepV1 "senate poll % result pending" = true :=
  ⟨discard_empty_results_amended.1 ["Smith 47%"] [⟨"Smith", 47⟩] (by decide),
   discard_empty_results_amended.2 "senate poll % result pending" (by decide)⟩

/-- Counterexample to C9: the `fetch-data.js` variant uses the anchor's own
href even when the block contains a different external link that the claimed
rule would select. -/
theorem url_selection_counterexample :
    urlV1 "http://a.example/poll" ≠
      selectUrlSpec "http://a.example/poll" ["http://b.example/source"] := by decide

/-- C9 (amended): the RTW2 main pass implements exactly the claimed selection
rule, and the `fetch-data.js` variant always returns the anchor's own href. -/
theorem eq_empty_of_isEmpty {a : String} (h : a.isEmpty = true) : a = "" :=
  (String.isEmpty_iff a).mp h

theorem url_selection_amended :
    (∀ (a : String) (links : List String), bestUrlRTW2 a links = selectUrlSpec a links) ∧
    (∀ a : String, urlV1 a = a) := by
  constructor
  · intro a links
    unfold bestUrlRTW2 selectUrlSpec
    cases links.find? isExternalRTW with
    | some h => rfl
    | none =>
      by_cases h1 : a.isEmpty = true
      · have ha : a = "" := eq_empty_of_isEmpty h1
        have he : ("" : String).isEmpty = true := rfl
        by_cases h2 : links.isEmpty = true
        · have hl : links = [] := by simpa using h2
          simp [ha, hl, he]
        · simp [ha, h2, he]
      · simp [h1]
  · intro a
    rfl

set_option maxRecDepth 8000 in
/-- Counterexample to C8: in the `fetch-data.js` variant an explicit
`Pollster:` line is returned by `clean(m[1])` with no truncation, so the
returned pollster string can exceed 100 characters. -/
theorem pickPollster_counterexample :
    100 < (pickPollster ("Pollster: " ++ (⟨List.replicate 120 'a'⟩ : String))).length := by
  decide

/-- C8 (amended): the RTW2 `pickPollster` returns the value of a
`Pollster:`/`Poll:`/`Firm:` labelled line among the first 10 lines truncated
to 100 characters, otherwise the first non-empty line truncated to 100
characters, and its result is always at most 100 characters.  The simpler
variant's `pickPollster` recognises only a `Pollster:` label, applies no
100-character cap (its result can be longer), and falls back to the first
line only when that line is at most 48 characters and contains no `%`. -/
theorem pickPollster_amended :
    (∀ txt : String, (pickPollsterRTW2 txt).length ≤ 100) ∧
    (∀ (txt : String) (cap : List Char),
        ((linesOf txt.data).take 10).findSome? labelMatch = some cap →
        pickPollsterRTW2 txt = ⟨cap.take 100⟩) ∧
    (∀ (txt : String) (first : List Char) (rest : List (List Char)),
        ((linesOf txt.data).take 10).findSome? labelMatch = none →
        linesOf txt.data = first :: rest →
        pickPollsterRTW2 txt = ⟨first.take 100⟩) ∧
    (∀ (txt : String) (cap : List Char),
        findPollster none txt.data = some cap →
        pickPollster txt = ⟨cleanL cap⟩) := by
  refine ⟨?_, ?_, ?_, ?_⟩
  · intro txt
    unfold pickPollsterRTW2
    cases h : ((linesOf txt.data).take 10).findSome? labelMatch with
    | some cap =>
      show (List.take 100 cap).length ≤ 100
      exact List.length_take_le 100 cap
    | none =>
      cases hl : linesOf txt.data with
      | nil => show (0 : Nat) ≤ 100; omega
      | cons first rest =>
        show (List.take 100 first).length ≤ 100
        exact List.length_take_le 100 first
  · intro txt cap h
    unfold pickPollsterRTW2
    rw [h]
  · intro txt first rest h1 h2
    unfold pickPollsterRTW2
    rw [h1, h2]
  · intro txt cap h
    unfold pickPollster
    rw [h]

/-- Witness for the amended C8 at concrete block texts. -/
theorem pickPollster_amended_witness :
    pickPollsterRTW2 "Pollster: Marist\nNov 1-3" = "Marist" ∧
    pickPollster "Pollster: Marist\nNov 1-3" = "Marist" :=
  ⟨pickPollster_amended.2.1 "Pollster: Marist\nNov 1-3" "Marist".data (by decide),
   pickPollster_amended.2.2.2 "Pollster: Marist\nNov 1-3" "Marist".data (by decide)⟩
